import Mathlib

set_option maxRecDepth 8000

/-
Verification of the ProView background task engines
(src/ProView/FileView.py and src/ProView/duplicate_finder.py).

The three workers (SearchWorker.run, DuplicateFinderWorker.run,
FileOperationWorker.run) are long-running synchronous loops over the
filesystem that emit Qt signals.  We embed each worker as a pure function
from an abstract filesystem oracle (the answers the OS would give to the
worker's queries, in the order the worker makes them) and a cancellation
schedule to the list of emitted events.

Cancellation: the worker's `_is_cancelled` flag is set at most once by
another thread and is only ever read by polling.  We number the reads of
the flag made by the worker 0, 1, 2, ... and model a schedule as
`Option Nat`: `some n` means the flag reads true from the n-th poll
onward (monotone, as in the source: once set it stays set), `none` means
the run is never cancelled.
-/

namespace ProView

/-- Value of the cancellation flag at poll number `k` under schedule `c`. -/
def isCanc (c : Option Nat) (k : Nat) : Bool :=
  match c with
  | none => false
  | some n => decide (n ≤ k)

/-- `listLeads a b` is `b.startswith(a)` on lists (used both for character
strings and for paths represented as component lists). -/
def listLeads {α : Type} [BEq α] : List α → List α → Bool
  | [], _ => true
  | _ :: _, [] => false
  | a :: as, b :: bs => a == b && listLeads as bs

/- ----------------------------------------------------------------
   FileOperationWorker (src/ProView/FileView.py, lines 474-562)

   Paths are modelled as the component lists of their normalised
   absolute form (the output of os.path.normpath), so
   `os.path.normpath` is the identity, string equality of normalised
   paths is list equality, and
   `norm_dest.startswith(norm_source + os.sep)` is "the components of
   the source are a proper prefix of the components of the
   destination".  `os.path.basename` of such a path is its last
   component, and `os.path.join(dir, name)` appends one component.
   ---------------------------------------------------------------- -/

/-- A filesystem path in normalised component form. -/
abbrev FPath := List String

/-- os.path.basename of a normalised path: its last component. -/
def pathBase (p : FPath) : String := p.getLastD ""

/-- `norm_dest.startswith(norm_source ++ os.sep)` : the source components
are a proper prefix of the destination components
(FileView.py line 515, second disjunct of the self-containment guard). -/
def insideOf (dst src : FPath) : Bool :=
  listLeads src dst && decide (src.length < dst.length)

/-- Index of the last '.' in a character list, if any. -/
def lastDotIdx : List Char → Option Nat
  | [] => none
  | c :: rest =>
    match lastDotIdx rest with
    | some i => some (i + 1)
    | none => if c == '.' then some 0 else none

/-- os.path.splitext on the characters of a basename: split at the last
dot, except that a name whose part before the last dot is all dots (such
as ".bashrc" or "...") has no extension. -/
def splitExtChars (cs : List Char) : List Char × List Char :=
  match lastDotIdx cs with
  | none => (cs, [])
  | some d =>
    if (cs.take d).any (fun c => c != '.') then (cs.take d, cs.drop d)
    else (cs, [])

/-- os.path.splitext on a basename string. -/
def splitExt (s : String) : String × String :=
  let ab := splitExtChars s.toList
  (String.mk ab.1, String.mk ab.2)

/-- The conflict-renamed candidate for `counter` : `name_copy_N` before
the extension, or appended to the whole name when there is no extension
(FileView.py lines 530-534). -/
def candName (filename : String) (counter : Nat) : String :=
  let ne := splitExt filename
  if ne.2 != "" then ne.1 ++ "_copy_" ++ toString counter ++ ne.2
  else filename ++ "_copy_" ++ toString counter

/-- The `while os.path.exists(destination_path)` loop of
FileView.py lines 528-536, from counter `c` on.  The loop runs over a
finite filesystem; we give it `fuel` and the run function passes one
more unit of fuel than there are existing paths, which covers every
situation the theorems below speak about. -/
def resolveFrom (exist : List FPath) (dstDir : FPath) (filename : String) :
    Nat → Nat → FPath
  | c, fuel + 1 =>
    let p := dstDir ++ [candName filename c]
    if p ∈ exist then resolveFrom exist dstDir filename (c + 1) fuel else p
  | c, 0 => dstDir ++ [candName filename c]

/-- Conflict resolution for one source item: try the plain basename
first, then `_copy_1`, `_copy_2`, ... (FileView.py lines 524-536). -/
def resolveDest (exist : List FPath) (dstDir : FPath) (filename : String) : FPath :=
  let p0 := dstDir ++ [filename]
  if p0 ∈ exist then resolveFrom exist dstDir filename 1 (exist.length + 1) else p0

/-- The operation kind of a FileOperationWorker. -/
inductive OpKind
  | copy
  | move
deriving DecidableEq, Repr

/-- `self.operation` as the lowercase string used in error messages. -/
def opName : OpKind → String
  | .copy => "copy"
  | .move => "move"

/-- `self.operation.title()` used in the pre-check error title. -/
def opTitle : OpKind → String
  | .copy => "Copy"
  | .move => "Move"

/-- The signals a FileOperationWorker emits (FileOperationSignals). -/
inductive OEvent
  | progress (n : Nat)
  | result (succ : Nat) (errors : List String) (kind : OpKind)
  | error (title msg : String)
  | finished
deriving DecidableEq, Repr

/-- Filesystem oracle for a file operation.  `exist` is the set of paths
for which os.path.exists answers true at the start of the run; a
successful copy adds the written destination path, a successful move
also removes the source.  `opErr src dst` is the outcome of the actual
shutil.copytree / shutil.copy2 / shutil.move call: `none` for success,
`some m` when it raises an exception with message `m` (both directory
and plain-file copies are modelled by this one outcome oracle). -/
structure OpFS where
  isdirDest : Bool
  exist : List FPath
  opErr : FPath → FPath → Option String

/-- Mutable state of one run: live filesystem, accumulated errors,
success count, and the number of cancellation polls made so far. -/
structure OpSt where
  exist : List FPath
  errors : List String
  succ : Nat
  k : Nat

/-- `int(((i + 1) / total) * 100)` of FileView.py lines 506/518/557,
with the real division taken exactly (floor of the rational value). -/
def pct (i total : Nat) : Nat := ((i + 1) * 100) / total

/-- The body of one iteration of the source-path loop
(FileView.py lines 503-558), after the cancellation poll. -/
def opStep (fs : OpFS) (dstDir : FPath) (kind : OpKind) (total i : Nat)
    (src : FPath) (st : OpSt) : List OEvent × OpSt :=
  if src ∉ st.exist then
    ([OEvent.progress (pct i total)],
     ⟨st.exist, st.errors ++ [pathBase src ++ ": Source no longer exists"], st.succ, st.k⟩)
  else if src == dstDir || insideOf dstDir src then
    ([OEvent.progress (pct i total)],
     ⟨st.exist,
      st.errors ++ [pathBase src ++ ": Cannot " ++ opName kind ++ " to itself or subdirectory"],
      st.succ, st.k⟩)
  else
    let dst := resolveDest st.exist dstDir (pathBase src)
    match fs.opErr src dst with
    | none =>
      match kind with
      | .copy =>
        ([OEvent.progress (pct i total)], ⟨st.exist ++ [dst], st.errors, st.succ + 1, st.k⟩)
      | .move =>
        ([OEvent.progress (pct i total)],
         ⟨(st.exist.filter (fun p => p != src)) ++ [dst], st.errors, st.succ + 1, st.k⟩)
    | some m =>
      ([OEvent.progress (pct i total)],
       ⟨st.exist, st.errors ++ [pathBase src ++ ": " ++ m], st.succ, st.k⟩)

/-- The `for i, source_path in enumerate(self.source_paths)` loop
(FileView.py lines 498-558): one cancellation poll, then the item body. -/
def opLoop (fs : OpFS) (dstDir : FPath) (kind : OpKind) (c : Option Nat) (total : Nat) :
    List FPath → Nat → OpSt → List OEvent × OpSt
  | [], _, st => ([], st)
  | src :: rest, i, st =>
    if isCanc c st.k then ([], ⟨st.exist, st.errors, st.succ, st.k + 1⟩)
    else
      let r1 := opStep fs dstDir kind total i src ⟨st.exist, st.errors, st.succ, st.k + 1⟩
      let r2 := opLoop fs dstDir kind c total rest (i + 1) r1.2
      (r1.1 ++ r2.1, r2.2)

/-- FileOperationWorker.run (FileView.py lines 487-562), returning the
emitted events together with the final state. -/
def opRunFull (fs : OpFS) (sources : List FPath) (dstDir : FPath) (kind : OpKind)
    (c : Option Nat) : List OEvent × OpSt :=
  if ¬ fs.isdirDest then
    ([OEvent.error (opTitle kind ++ " Error") "Invalid destination directory."],
     ⟨fs.exist, [], 0, 0⟩)
  else
    let r := opLoop fs dstDir kind c sources.length sources 0 ⟨fs.exist, [], 0, 0⟩
    (r.1 ++ [OEvent.result r.2.succ r.2.errors kind, OEvent.finished], r.2)

/-- The events emitted by one FileOperationWorker run. -/
def opRun (fs : OpFS) (sources : List FPath) (dstDir : FPath) (kind : OpKind)
    (c : Option Nat) : List OEvent :=
  (opRunFull fs sources dstDir kind c).1

/-- The percent values of the progress events, in emission order. -/
def oVals : List OEvent → List Nat
  | [] => []
  | OEvent.progress n :: es => n :: oVals es
  | _ :: es => oVals es

/- ----------------------------------------------------------------
   SearchWorker (src/ProView/FileView.py, lines 574-691)

   The os.walk traversal is part of the environment: the oracle gives,
   in traversal order, the directories os.walk yields, each with the
   name entries of its subdirectories and files and the joined full
   path of each entry.  Per-entry UnicodeDecodeError / OSError is an
   oracle bit on the entry; the `dirs.remove` pruning on such an error
   only shapes the later part of the walk, which is oracle data anyway.
   `total_processed` of the source is only printed and is omitted.
   ---------------------------------------------------------------- -/

/-- One name entry of a walked directory: its name, its joined full
path, and whether touching it raises (UnicodeDecodeError / OSError). -/
structure SEntry where
  name : String
  path : String
  err : Bool
deriving DecidableEq, Repr

/-- One directory yielded by os.walk: whether os.path.exists still holds
for it (FileView.py line 629), whether its body runs without a
PermissionError / OSError (the try at lines 627-672), and its entries. -/
structure SDir where
  dexists : Bool
  accessible : Bool
  dirNames : List SEntry
  fileNames : List SEntry
deriving DecidableEq, Repr

/-- Filesystem oracle for one search run. -/
structure SearchFS where
  rootOk : Bool
  rootListable : Bool
  pexists : String → Bool
  walk : List SDir

/-- The signals a SearchWorker emits (WorkerSignals). -/
inductive SEvent
  | progress (n : Nat)
  | result (ms : List String)
  | finished
deriving DecidableEq, Repr

/-- Loop state of a search run: matches found so far, directories
processed so far (the `processed` counter), and polls made so far. -/
structure SearchSt where
  found : List String
  processed : Nat
  k : Nat
deriving DecidableEq, Repr

/-- Python's str.lower(), character by character. -/
def strLower (s : String) : String := String.mk (s.toList.map Char.toLower)

/-- `q in s` for Python strings: `q` occurs contiguously in `s`. -/
def hasSub (q : List Char) : List Char → Bool
  | [] => q.isEmpty
  | b :: t => listLeads q (b :: t) || hasSub q t

/-- `self.query in name.lower()` where `self.query` is already
lowercased (FileView.py lines 578, 641, 660). -/
def matchName (qlow : String) (name : String) : Bool :=
  hasSub qlow.toList (strLower name).toList

/-- The per-entry loops of FileView.py lines 635-668: one cancellation
poll per entry, skip entries that raise, record a match when the
lowered name contains the query and the full path still exists. -/
def entryScan (fs : SearchFS) (qlow : String) (c : Option Nat) :
    List SEntry → List String → Nat → List String × Nat
  | [], ms, k => (ms, k)
  | e :: es, ms, k =>
    if isCanc c k then (ms, k + 1)
    else if e.err then entryScan fs qlow c es ms (k + 1)
    else if matchName qlow e.name && fs.pexists e.path then
      entryScan fs qlow c es (ms ++ [e.path]) (k + 1)
    else entryScan fs qlow c es ms (k + 1)

/-- The `for root, dirs, files in os.walk(...)` loop
(FileView.py lines 621-683).  A directory that no longer exists or is
inaccessible is skipped without touching the `processed` counter; an
entered directory scans its entries (cancellation stops the entry scans
but the directory tail still runs), bumps `processed`, emits progress
every 5 directories, and the loop breaks once more than 200 matches are
recorded or more than 2000 directories are processed. -/
def dirLoop (fs : SearchFS) (qlow : String) (c : Option Nat) :
    List SDir → SearchSt → List SEvent × SearchSt
  | [], st => ([], st)
  | d :: ds, st =>
    if isCanc c st.k then ([], ⟨st.found, st.processed, st.k + 1⟩)
    else if ¬ d.dexists then dirLoop fs qlow c ds ⟨st.found, st.processed, st.k + 1⟩
    else if ¬ d.accessible then dirLoop fs qlow c ds ⟨st.found, st.processed, st.k + 1⟩
    else
      let r1 := entryScan fs qlow c d.dirNames st.found (st.k + 1)
      let r2 := entryScan fs qlow c d.fileNames r1.1 r1.2
      let p' := st.processed + 1
      let evs := if p' % 5 == 0 then [SEvent.progress (min (p' * 2) 95)] else []
      if 200 < r2.1.length ∨ 2000 < p' then (evs, ⟨r2.1, p', r2.2⟩)
      else
        let r3 := dirLoop fs qlow c ds ⟨r2.1, p', r2.2⟩
        (evs ++ r3.1, r3.2)

/-- SearchWorker.run (FileView.py lines 586-691). -/
def searchRun (fs : SearchFS) (q : String) (c : Option Nat) : List SEvent :=
  let qlow := strLower q
  if ¬ fs.rootOk then [SEvent.result [], SEvent.progress 100, SEvent.finished]
  else if ¬ fs.rootListable then [SEvent.result [], SEvent.progress 100, SEvent.finished]
  else
    let r := dirLoop fs qlow c fs.walk ⟨[], 0, 0⟩
    r.1 ++ [SEvent.result r.2.found, SEvent.progress 100, SEvent.finished]

/-- The percent values of the search progress events, in order. -/
def sVals : List SEvent → List Nat
  | [] => []
  | SEvent.progress n :: es => n :: sVals es
  | _ :: es => sVals es

/-- The match lists of the result events of a search run, in order. -/
def sResults : List SEvent → List (List String)
  | [] => []
  | SEvent.result ms :: es => ms :: sResults es
  | _ :: es => sResults es

/-- Number of entries of one walked directory. -/
def entCount (d : SDir) : Nat := d.dirNames.length + d.fileNames.length

/-- The largest entry count among the walked directories. -/
def entMax (ds : List SDir) : Nat := (ds.map entCount).foldr max 0

/- ----------------------------------------------------------------
   DuplicateFinderWorker (src/ProView/duplicate_finder.py, lines 19-222)

   The oracle gives the os.walk output of each root (a list of
   directories, each a list of joined file paths), and per path the
   answers of os.path.exists, os.path.islink, os.stat (`none` for
   OSError / PermissionError), get_file_hash (`none` when the file
   fails to open or read, or when the read is cut short by a
   cancellation poll inside get_file_hash: in both cases the source
   returns None and the file is dropped), os.path.getmtime and
   os.path.getsize (the two post-hash stat calls, `none` when they
   raise). -/

/-- Filesystem oracle for one duplicate scan. -/
structure DupFS where
  pexists : String → Bool
  isdir : String → Bool
  listErr : String → Option String
  walk : String → List (List String)
  islink : String → Bool
  statSize : String → Option Nat
  fileHash : String → Option String
  getmtime : String → Option Nat
  getsize : String → Option Nat

/-- One emitted duplicate group (the dict built at
duplicate_finder.py lines 203-209). -/
structure DupGroup where
  hash : String
  files : List String
  size : Nat
  wasted_space : Nat
  count : Nat
deriving DecidableEq, Repr

/-- The signals a DuplicateFinderWorker emits (DuplicateFinderSignals). -/
inductive DEvent
  | status (s : String)
  | progress (n : Nat)
  | result (groups : List DupGroup) (totalWasted : Nat)
  | finished
deriving DecidableEq, Repr

/-- State of the scan stage: the size_groups insertion-ordered map,
the running file count, and the polls made so far. -/
structure ScanSt where
  sg : List (Nat × List String)
  total : Nat
  k : Nat
deriving DecidableEq, Repr

/-- `size_groups[file_size].append(filepath)` on an insertion-ordered
association list, as a Python defaultdict behaves. -/
def sgInsert : List (Nat × List String) → Nat → String → List (Nat × List String)
  | [], sz, p => [(sz, [p])]
  | (s, ps) :: rest, sz, p =>
    if s == sz then (s, ps ++ [p]) :: rest else (s, ps) :: sgInsert rest sz p

/-- The per-file scan loop (duplicate_finder.py lines 91-121): one
cancellation poll per file, then existence, symlink and stat checks,
the minimum-size filter, the size-group insertion and the
every-50-files status message. -/
def scanFiles (fs : DupFS) (minSize : Nat) (c : Option Nat) :
    List String → ScanSt → List DEvent × ScanSt
  | [], st => ([], st)
  | f :: rest, st =>
    if isCanc c st.k then ([], ⟨st.sg, st.total, st.k + 1⟩)
    else
      let st1 : ScanSt := ⟨st.sg, st.total, st.k + 1⟩
      if ¬ fs.pexists f then scanFiles fs minSize c rest st1
      else if fs.islink f then scanFiles fs minSize c rest st1
      else
        match fs.statSize f with
        | none => scanFiles fs minSize c rest st1
        | some sz =>
          if sz < minSize then scanFiles fs minSize c rest st1
          else
            let total' := st.total + 1
            let evs :=
              if total' % 50 == 0 then
                [DEvent.status ("Scanned " ++ toString total' ++ " files...")]
              else []
            let r := scanFiles fs minSize c rest ⟨sgInsert st.sg sz f, total', st1.k⟩
            (evs ++ r.1, r.2)

/-- The `for root, dirs, files in os.walk(root_path)` loop
(duplicate_finder.py lines 84-121): one cancellation poll per yielded
directory. -/
def scanDirs (fs : DupFS) (minSize : Nat) (c : Option Nat) :
    List (List String) → ScanSt → List DEvent × ScanSt
  | [], st => ([], st)
  | d :: rest, st =>
    if isCanc c st.k then ([], ⟨st.sg, st.total, st.k + 1⟩)
    else
      let r1 := scanFiles fs minSize c d ⟨st.sg, st.total, st.k + 1⟩
      let r2 := scanDirs fs minSize c rest r1.2
      (r1.1 ++ r2.1, r2.2)

/-- The `for root_path in self.root_paths` loop
(duplicate_finder.py lines 58-126): one cancellation poll per root,
the existence / directory / listability checks on the root (a failed
os.listdir emits a status message and skips the root), then the walk. -/
def scanRoots (fs : DupFS) (minSize : Nat) (c : Option Nat) :
    List String → ScanSt → List DEvent × ScanSt
  | [], st => ([], st)
  | r :: rest, st =>
    if isCanc c st.k then ([], ⟨st.sg, st.total, st.k + 1⟩)
    else
      let st1 : ScanSt := ⟨st.sg, st.total, st.k + 1⟩
      if ¬ fs.pexists r then scanRoots fs minSize c rest st1
      else if ¬ fs.isdir r then scanRoots fs minSize c rest st1
      else
        match fs.listErr r with
        | some e =>
          let r2 := scanRoots fs minSize c rest st1
          (DEvent.status ("Cannot access " ++ r ++ ": " ++ e) :: r2.1, r2.2)
        | none =>
          let r1 := scanDirs fs minSize c (fs.walk r) st1
          let r2 := scanRoots fs minSize c rest r1.2
          (r1.1 ++ r2.1, r2.2)

/-- `potential_duplicates` (duplicate_finder.py lines 141-143): the
total number of files lying in size groups with at least two members. -/
def potentialOf (sg : List (Nat × List String)) : Nat :=
  (sg.map (fun g => if g.2.length > 1 then g.2.length else 0)).sum

/-- State of the hash stage: the hash_groups insertion-ordered map, the
processed-file counter and the polls made so far. -/
structure HashSt where
  hg : List (String × List String)
  processed : Nat
  k : Nat
deriving DecidableEq, Repr

/-- `hash_groups[file_hash].append(filepath)`. -/
def hgInsert : List (String × List String) → String → String → List (String × List String)
  | [], h, p => [(h, [p])]
  | (g, ps) :: rest, h, p =>
    if g == h then (g, ps ++ [p]) :: rest else (g, ps) :: hgInsert rest h p

/-- The per-file hash loop (duplicate_finder.py lines 163-174): one
cancellation poll per file, a hash that may fail (dropped file), the
processed counter and the every-10-files progress event
`int(processed / potential * 100)`. -/
def hashFiles (fs : DupFS) (c : Option Nat) (potential : Nat) :
    List String → HashSt → List DEvent × HashSt
  | [], st => ([], st)
  | f :: rest, st =>
    if isCanc c st.k then ([], ⟨st.hg, st.processed, st.k + 1⟩)
    else
      let hg' :=
        match fs.fileHash f with
        | some h => hgInsert st.hg h f
        | none => st.hg
      let p' := st.processed + 1
      let evs :=
        if p' % 10 == 0 then [DEvent.progress ((p' * 100) / potential)] else []
      let r := hashFiles fs c potential rest ⟨hg', p', st.k + 1⟩
      (evs ++ r.1, r.2)

/-- The `for file_size, file_paths in size_groups.items()` loop of the
hash stage (duplicate_finder.py lines 156-174): one cancellation poll
per size group, hashing only groups with at least two members. -/
def hashGroupsLoop (fs : DupFS) (c : Option Nat) (potential : Nat) :
    List (Nat × List String) → HashSt → List DEvent × HashSt
  | [], st => ([], st)
  | (_, ps) :: rest, st =>
    if isCanc c st.k then ([], ⟨st.hg, st.processed, st.k + 1⟩)
    else
      let st1 : HashSt := ⟨st.hg, st.processed, st.k + 1⟩
      if ps.length > 1 then
        let r1 := hashFiles fs c potential ps st1
        let r2 := hashGroupsLoop fs c potential rest r1.2
        (r1.1 ++ r2.1, r2.2)
      else hashGroupsLoop fs c potential rest st1

/-- `os.path.getmtime` succeeds on every member of the group (the sort
at duplicate_finder.py line 194 computes the key of every member and
raises, leaving the order untouched, as soon as one is unreadable). -/
def allMtimes (fs : DupFS) (ps : List String) : Bool :=
  ps.all (fun p => (fs.getmtime p).isSome)

/-- The sort key of duplicate_finder.py line 194. -/
def mkey (fs : DupFS) (p : String) : Nat := (fs.getmtime p).getD 0

/-- The stable ascending sort by modification time; Python's list.sort
is a stable sort, and any two stable sorts by the same key agree. -/
def sortM (fs : DupFS) (ps : List String) : List String :=
  List.insertionSort (fun a b => mkey fs a ≤ mkey fs b) ps

/-- The body of the assembly loop for one hash group
(duplicate_finder.py lines 188-215): singleton groups are skipped;
the members are sorted by modification time when every mtime is
readable, else kept in discovery order; `os.path.getsize` on the first
member may fail, in which case the group is dropped (`continue` at
line 215). -/
def assembleGroup (fs : DupFS) (h : String) (ps : List String) : Option DupGroup :=
  if ps.length > 1 then
    let sorted := if allMtimes fs ps then sortM fs ps else ps
    match sorted.head? with
    | none => none
    | some p0 =>
      match fs.getsize p0 with
      | some sz => some ⟨h, sorted, sz, sz * (ps.length - 1), ps.length⟩
      | none => none
  else none

/-- The `for file_hash, file_paths in hash_groups.items()` assembly
loop (duplicate_finder.py lines 188-215), returning the ordered group
list and the accumulated `total_wasted_space`. -/
def assembleLoop (fs : DupFS) : List (String × List String) → List DupGroup × Nat
  | [] => ([], 0)
  | (h, ps) :: rest =>
    let r := assembleLoop fs rest
    match assembleGroup fs h ps with
    | some g => (g :: r.1, g.wasted_space + r.2)
    | none => r

/-- The whole scan stage from the start of run up to the line-128
cancellation check: events and final state of the root loop. -/
def dupScanOut (fs : DupFS) (roots : List String) (minSize : Nat) (c : Option Nat) :
    List DEvent × ScanSt :=
  scanRoots fs minSize c roots ⟨[], 0, 0⟩

/-- The read of `_is_cancelled` at duplicate_finder.py line 128. -/
def dupScanCancelled (fs : DupFS) (roots : List String) (minSize : Nat)
    (c : Option Nat) : Bool :=
  isCanc c (dupScanOut fs roots minSize c).2.k

/-- The hash stage run on the scan output (entered only when the run is
not cancelled at line 128 and `potential_duplicates` is nonzero; the
line-128 read consumed one poll). -/
def dupHashOut (fs : DupFS) (roots : List String) (minSize : Nat) (c : Option Nat) :
    List DEvent × HashSt :=
  let s1 := (dupScanOut fs roots minSize c).2
  hashGroupsLoop fs c (potentialOf s1.sg) s1.sg ⟨[], 0, s1.k + 1⟩

/-- The read of `_is_cancelled` at duplicate_finder.py line 176. -/
def dupHashCancelled (fs : DupFS) (roots : List String) (minSize : Nat)
    (c : Option Nat) : Bool :=
  isCanc c (dupHashOut fs roots minSize c).2.k

/-- DuplicateFinderWorker.run (duplicate_finder.py lines 45-222). -/
def dupRun (fs : DupFS) (roots : List String) (minSize : Nat) (c : Option Nat) :
    List DEvent :=
  let s1 := dupScanOut fs roots minSize c
  let evs := DEvent.status "Scanning files..." :: s1.1
  if dupScanCancelled fs roots minSize c then evs ++ [DEvent.finished]
  else
    let evs := evs ++
      [DEvent.status ("Found " ++ toString s1.2.total ++ " files, checking for duplicates...")]
    let potential := potentialOf s1.2.sg
    if potential == 0 then
      evs ++ [DEvent.result [] 0, DEvent.progress 100, DEvent.finished]
    else
      let evs := evs ++
        [DEvent.status ("Checking " ++ toString potential ++ " potential duplicates...")]
      let s2 := dupHashOut fs roots minSize c
      if dupHashCancelled fs roots minSize c then evs ++ s2.1 ++ [DEvent.finished]
      else
        let r := assembleLoop fs s2.2.hg
        evs ++ s2.1 ++ [DEvent.result r.1 r.2, DEvent.progress 100, DEvent.finished]

/-- The percent values of the duplicate-scan progress events, in order. -/
def dVals : List DEvent → List Nat
  | [] => []
  | DEvent.progress n :: es => n :: dVals es
  | _ :: es => dVals es

/- ----------------------------------------------------------------
   Concrete inputs used by the counterexamples and witnesses below.
   ---------------------------------------------------------------- -/

/-- A walk consisting of one directory holding 201 files whose names
all contain the letter a. -/
def c2cexWalk : List SDir :=
  [⟨true, true, [],
    (List.range 201).map (fun i => ⟨"a" ++ toString i, "p" ++ toString i, false⟩)⟩]

/-- Search filesystem for the bound counterexample. -/
def c2cexFS : SearchFS := ⟨true, true, fun _ => true, c2cexWalk⟩

/-- Search filesystem with one directory holding one matching file. -/
def c2wFS : SearchFS := ⟨true, true, fun _ => true, [⟨true, true, [], [⟨"abc", "p", false⟩]⟩]⟩

/-- Duplicate-scan filesystem with two same-size files of equal hash
whose modification times are readable (f1 newer than f2). -/
def c3wFS : DupFS :=
  ⟨fun _ => true, fun _ => true, fun _ => none, fun _ => [["f1", "f2"]],
   fun _ => false, fun _ => some 5, fun _ => some "h",
   fun p => if p == "f1" then some 20 else some 10, fun _ => some 5⟩

/-- Same filesystem contents as `c3wFS`, for the C4 witness. -/
def c4wFS : DupFS :=
  ⟨fun _ => true, fun _ => true, fun _ => none, fun _ => [["f1", "f2"]],
   fun _ => false, fun _ => some 5, fun _ => some "h",
   fun p => if p == "f1" then some 20 else some 10, fun _ => some 5⟩

/-- Duplicate-scan filesystem with two same-size files of equal hash
where one modification time is unreadable and so is the size of the
group's first member at assembly time. -/
def c5cexFS : DupFS :=
  ⟨fun _ => true, fun _ => true, fun _ => none, fun _ => [["f1", "f2"]],
   fun _ => false, fun _ => some 5, fun _ => some "h",
   fun p => if p == "f1" then none else some 10, fun _ => none⟩

/-- Same filesystem contents as `c3wFS`, for the C5 witness. -/
def c5wFS : DupFS :=
  ⟨fun _ => true, fun _ => true, fun _ => none, fun _ => [["f1", "f2"]],
   fun _ => false, fun _ => some 5, fun _ => some "h",
   fun p => if p == "f1" then some 20 else some 10, fun _ => some 5⟩

/-- A ten-item happy-path batch (distinct source files). -/
def c6srcs : List FPath := (List.range 10).map (fun i => ["s", "f" ++ toString i])

/-- File-operation filesystem for the ten-item happy path. -/
def c6FS : OpFS := ⟨true, c6srcs, fun _ _ => none⟩

/-- Two sources both named a.txt, with a.txt already at the destination. -/
def c7FS : OpFS := ⟨true, [["s", "a.txt"], ["t", "a.txt"], ["d", "a.txt"]], fun _ _ => none⟩

/-- File-operation filesystem for the C8 witness (source s sits above
the destination directory s/d). -/
def c8wFS : OpFS := ⟨true, [["s"]], fun _ _ => none⟩

/-- File-operation filesystem for the cancelled-run counterexample. -/
def c9cexFS : OpFS := ⟨true, [["s", "x"], ["s", "y"]], fun _ _ => none⟩

/- ----------------------------------------------------------------
   General helper lemmas.
   ---------------------------------------------------------------- -/

theorem lastSome {α : Type} (l₁ l₂ : List α) (a : α) (h : l₂.getLast? = some a) :
    (l₁ ++ l₂).getLast? = some a := by
  rw [List.getLast?_append, h]; rfl

theorem oVals_append (l₁ l₂ : List OEvent) : oVals (l₁ ++ l₂) = oVals l₁ ++ oVals l₂ := by
  induction l₁ with
  | nil => rfl
  | cons e t ih => cases e <;> simp [oVals, ih]

theorem sVals_append (l₁ l₂ : List SEvent) : sVals (l₁ ++ l₂) = sVals l₁ ++ sVals l₂ := by
  induction l₁ with
  | nil => rfl
  | cons e t ih => cases e <;> simp [sVals, ih]

theorem dVals_append (l₁ l₂ : List DEvent) : dVals (l₁ ++ l₂) = dVals l₁ ++ dVals l₂ := by
  induction l₁ with
  | nil => rfl
  | cons e t ih => cases e <;> simp [dVals, ih]

theorem sResults_append (l₁ l₂ : List SEvent) :
    sResults (l₁ ++ l₂) = sResults l₁ ++ sResults l₂ := by
  induction l₁ with
  | nil => rfl
  | cons e t ih => cases e <;> simp [sResults, ih]

/-- Every branch of the per-item body emits exactly the one progress
event for its index. -/
theorem opStep_fst (fs : OpFS) (dstDir : FPath) (kind : OpKind) (total i : Nat)
    (src : FPath) (st : OpSt) :
    (opStep fs dstDir kind total i src st).1 = [OEvent.progress (pct i total)] := by
  unfold opStep
  split
  · rfl
  · split
    · rfl
    · cases kind <;>
        rcases h : fs.opErr src (resolveDest st.exist dstDir (pathBase src)) with _ | m <;>
        simp [h]

/-- An uncancelled item loop emits the percentage of every item index in
order. -/
theorem opLoop_vals_none (fs : OpFS) (dstDir : FPath) (kind : OpKind) (total : Nat) :
    ∀ (l : List FPath) (i : Nat) (st : OpSt),
      oVals (opLoop fs dstDir kind none total l i st).1 =
        (List.range' i l.length).map (fun j => pct j total) := by
  intro l
  induction l with
  | nil => intro i st; rfl
  | cons src rest ih =>
    intro i st
    simp [opLoop, isCanc, oVals_append, opStep_fst, ih, List.range'_succ, oVals]

/-- Percentages are monotone in the item index. -/
theorem pct_mono (total : Nat) {i j : Nat} (h : i ≤ j) : pct i total ≤ pct j total :=
  Nat.div_le_div_right (Nat.mul_le_mul_right 100 (Nat.succ_le_succ h))

/-- Percentages stay at most 100 while the index is in range. -/
theorem pct_le_100 {i total : Nat} (h : i + 1 ≤ total) : pct i total ≤ 100 := by
  have ht : total ≠ 0 := by omega
  calc pct i total ≤ (total * 100) / total :=
        Nat.div_le_div_right (Nat.mul_le_mul_right 100 h)
    _ = 100 := Nat.mul_div_cancel_left 100 (Nat.pos_of_ne_zero ht)

/-- Under any cancellation schedule the item loop's percentages are
non-decreasing and at most 100. -/
theorem opLoop_vals_mono (fs : OpFS) (dstDir : FPath) (kind : OpKind) (c : Option Nat)
    (total : Nat) :
    ∀ (l : List FPath) (i : Nat) (st : OpSt), i + l.length = total →
      (oVals (opLoop fs dstDir kind c total l i st).1).Pairwise (· ≤ ·) ∧
      ∀ v ∈ oVals (opLoop fs dstDir kind c total l i st).1, pct i total ≤ v ∧ v ≤ 100 := by
  intro l
  induction l with
  | nil =>
    intro i st _
    exact ⟨List.Pairwise.nil, fun v hv => absurd hv (List.not_mem_nil v)⟩
  | cons src rest ih =>
    intro i st htot
    simp only [opLoop]
    split
    · exact ⟨List.Pairwise.nil, fun v hv => absurd hv (List.not_mem_nil v)⟩
    · have htot' : (i + 1) + rest.length = total := by
        simpa [Nat.add_assoc, Nat.add_comm, Nat.add_left_comm] using htot
      have hrec := ih (i + 1) (opStep fs dstDir kind total i src
        ⟨st.exist, st.errors, st.succ, st.k + 1⟩).2 htot'
      have hi1 : i + 1 ≤ total := by omega
      simp only [oVals_append, opStep_fst, oVals]
      constructor
      · refine List.Pairwise.cons ?_ hrec.1
        intro v hv
        exact le_trans (pct_mono total (Nat.le_succ i)) (hrec.2 v hv).1
      · intro v hv
        rcases List.mem_cons.1 hv with rfl | hv'
        · exact ⟨le_refl _, pct_le_100 hi1⟩
        · exact ⟨le_trans (pct_mono total (Nat.le_succ i)) (hrec.2 v hv').1, (hrec.2 v hv').2⟩

/-- A full file-operation run has non-decreasing percentages, all at
most 100. -/
theorem opRun_vals_mono (fs : OpFS) (sources : List FPath) (dstDir : FPath)
    (kind : OpKind) (c : Option Nat) :
    (oVals (opRun fs sources dstDir kind c)).Pairwise (· ≤ ·) ∧
    ∀ v ∈ oVals (opRun fs sources dstDir kind c), v ≤ 100 := by
  unfold opRun opRunFull
  split
  · exact ⟨List.Pairwise.nil, fun v hv => absurd hv (List.not_mem_nil v)⟩
  · have h := opLoop_vals_mono fs dstDir kind c sources.length sources 0
      ⟨fs.exist, [], 0, 0⟩ (by simp)
    simp only [oVals_append, oVals, List.append_nil]
    exact ⟨h.1, fun v hv => (h.2 v hv).2⟩

/-- The per-item body records the self-containment error, leaves the
filesystem untouched and does not count a success, whenever the source
exists and the normalised destination equals the source or lies inside
it. -/
theorem opStep_guard (fs : OpFS) (dstDir : FPath) (kind : OpKind) (total i : Nat)
    (src : FPath) (st : OpSt) (hex : src ∈ st.exist)
    (hguard : (src == dstDir || insideOf dstDir src) = true) :
    opStep fs dstDir kind total i src st =
      ([OEvent.progress (pct i total)],
       ⟨st.exist,
        st.errors ++ [pathBase src ++ ": Cannot " ++ opName kind ++ " to itself or subdirectory"],
        st.succ, st.k⟩) := by
  unfold opStep
  rw [if_neg (not_not_intro hex), if_pos hguard]

/-- C10: a file operation on an empty source list with a valid
destination emits exactly the result event `result(0, [], kind)`
followed by `finished`: no progress event, no error event, and the
per-item percent formula (whose denominator would be zero) is never
evaluated. -/
theorem c10_empty_batch (exist : List FPath) (opErr : FPath → FPath → Option String)
    (dstDir : FPath) (kind : OpKind) (c : Option Nat) :
    opRun ⟨true, exist, opErr⟩ [] dstDir kind c =
      [OEvent.result 0 [] kind, OEvent.finished] := rfl

/-- C6: an uncancelled file operation with a valid destination emits
exactly one progress event per source item, the i-th carrying
`int(((i + 1) / total) * 100)`; in particular a ten-item happy-path
batch emits exactly 10, 20, ..., 100 in order. -/
theorem c6_progress_per_item :
    (∀ (exist : List FPath) (opErr : FPath → FPath → Option String)
        (sources : List FPath) (dstDir : FPath) (kind : OpKind),
        oVals (opRun ⟨true, exist, opErr⟩ sources dstDir kind none) =
          (List.range sources.length).map (fun i => pct i sources.length)) ∧
    oVals (opRun c6FS c6srcs ["d"] OpKind.copy none) =
      [10, 20, 30, 40, 50, 60, 70, 80, 90, 100] := by
  constructor
  · intro exist opErr sources dstDir kind
    rw [List.range_eq_range']
    simp [opRun, opRunFull, oVals_append, oVals, opLoop_vals_none]
  · rfl

/-- C8: a processed source item that is its own destination or contains
the destination gets exactly the one error
`{basename}: Cannot {op} to itself or subdirectory` and its one
progress event; no path is written or removed for it and the loop
continues with the remaining items from an otherwise unchanged state. -/
theorem c8_self_containment (fs : OpFS) (dstDir : FPath) (kind : OpKind) (c : Option Nat)
    (total i : Nat) (src : FPath) (rest : List FPath) (st : OpSt)
    (hcanc : isCanc c st.k = false) (hex : src ∈ st.exist)
    (hguard : (src == dstDir || insideOf dstDir src) = true) :
    opLoop fs dstDir kind c total (src :: rest) i st =
      (OEvent.progress (pct i total) ::
        (opLoop fs dstDir kind c total rest (i + 1)
          ⟨st.exist,
           st.errors ++ [pathBase src ++ ": Cannot " ++ opName kind ++ " to itself or subdirectory"],
           st.succ, st.k + 1⟩).1,
       (opLoop fs dstDir kind c total rest (i + 1)
         ⟨st.exist,
          st.errors ++ [pathBase src ++ ": Cannot " ++ opName kind ++ " to itself or subdirectory"],
          st.succ, st.k + 1⟩).2) := by
  simp only [opLoop, hcanc, Bool.false_eq_true, if_false]
  rw [opStep_guard fs dstDir kind total i src ⟨st.exist, st.errors, st.succ, st.k + 1⟩ hex hguard]
  rfl

/-- Witness for C8 at a concrete input: moving the directory s into its
own child s/d records the self-containment error and leaves the
filesystem state unchanged. -/
theorem c8_self_containment_w :
    opLoop c8wFS ["s", "d"] OpKind.copy none 1 [["s"]] 0 ⟨[["s"]], [], 0, 0⟩ =
      ([OEvent.progress 100],
       ⟨[["s"]], ["s: Cannot copy to itself or subdirectory"], 0, 1⟩) := by
  have h := c8_self_containment c8wFS ["s", "d"] OpKind.copy none 1 0 ["s"] []
    ⟨[["s"]], [], 0, 0⟩ (by decide) (by decide) (by decide)
  simpa using h

/-- The conflict-resolution loop, started at counter `cstart` with
enough fuel, lands on the first free candidate. -/
theorem resolveFrom_least (exist : List FPath) (dstDir : FPath) (filename : String) :
    ∀ (fuel cstart m : Nat), cstart ≤ m → m < cstart + fuel →
      (dstDir ++ [candName filename m]) ∉ exist →
      ∃ N, cstart ≤ N ∧ N ≤ m ∧
        resolveFrom exist dstDir filename cstart fuel = dstDir ++ [candName filename N] ∧
        (dstDir ++ [candName filename N]) ∉ exist ∧
        ∀ j, cstart ≤ j → j < N → (dstDir ++ [candName filename j]) ∈ exist := by
  intro fuel
  induction fuel with
  | zero => intro cstart m h1 h2 _; omega
  | succ fuel ih =>
    intro cstart m h1 h2 hfree
    simp only [resolveFrom]
    by_cases hmem : (dstDir ++ [candName filename cstart]) ∈ exist
    · rw [if_pos hmem]
      have hne : cstart ≠ m := fun he => hfree (he ▸ hmem)
      obtain ⟨N, hN1, hN2, hN3, hN4, hN5⟩ := ih (cstart + 1) m (by omega) (by omega) hfree
      refine ⟨N, by omega, hN2, hN3, hN4, fun j hj1 hj2 => ?_⟩
      rcases Nat.eq_or_lt_of_le hj1 with rfl | hj
      · exact hmem
      · exact hN5 j hj hj2
    · rw [if_neg hmem]
      exact ⟨cstart, le_refl _, h1, rfl, hmem, fun j hj1 hj2 => absurd (by omega : cstart < cstart) (lt_irrefl _)⟩

/-- C7: when the destination already holds the source's basename,
conflict resolution returns `name_copy_N` (extension preserved) for the
least `N ≥ 1` whose candidate is free, every smaller counter being an
existing conflict; concretely, copying a.txt twice into a directory
that already holds a.txt writes a_copy_1.txt and then a_copy_2.txt,
with no errors. -/
theorem c7_conflict_rename :
    (∀ (exist : List FPath) (dstDir : FPath) (filename : String) (m : Nat),
        (dstDir ++ [filename]) ∈ exist → 1 ≤ m → m ≤ exist.length + 1 →
        (dstDir ++ [candName filename m]) ∉ exist →
        ∃ N, 1 ≤ N ∧ N ≤ m ∧
          resolveDest exist dstDir filename = dstDir ++ [candName filename N] ∧
          (dstDir ++ [candName filename N]) ∉ exist ∧
          ∀ j, 1 ≤ j → j < N → (dstDir ++ [candName filename j]) ∈ exist) ∧
    (opRunFull c7FS [["s", "a.txt"], ["t", "a.txt"]] ["d"] OpKind.copy none).2.exist =
      [["s", "a.txt"], ["t", "a.txt"], ["d", "a.txt"],
       ["d", "a_copy_1.txt"], ["d", "a_copy_2.txt"]] ∧
    (opRunFull c7FS [["s", "a.txt"], ["t", "a.txt"]] ["d"] OpKind.copy none).2.errors = [] := by
  refine ⟨?_, by decide, by decide⟩
  intro exist dstDir filename m hconf hm1 hm2 hfree
  simp only [resolveDest]
  rw [if_pos hconf]
  exact resolveFrom_least exist dstDir filename (exist.length + 1) 1 m hm1 (by omega) hfree

/-- Witness for C7 at a concrete input: with only a.txt present, the
resolved name is the candidate of some counter N with 1 ≤ N ≤ 1. -/
theorem c7_conflict_rename_w :
    ∃ N, 1 ≤ N ∧ N ≤ 1 ∧
      resolveDest [["d", "a.txt"]] ["d"] "a.txt" = ["d"] ++ [candName "a.txt" N] ∧
      (["d"] ++ [candName "a.txt" N]) ∉ [["d", "a.txt"]] ∧
      ∀ j, 1 ≤ j → j < N → (["d"] ++ [candName "a.txt" j]) ∈ [["d", "a.txt"]] :=
  c7_conflict_rename.1 [["d", "a.txt"]] ["d"] "a.txt" 1 (by decide) (by decide)
    (by decide) (by decide)

/-- C9 counterexample: a two-item file operation cancelled before its
second item emits the progress values [50] only, so its progress
sequence never reaches the terminal value 100. -/
theorem c9_cex :
    oVals (opRun c9cexFS [["s", "x"], ["s", "y"]] ["d"] OpKind.copy (some 1)) = [50] ∧
    (oVals (opRun c9cexFS [["s", "x"], ["s", "y"]] ["d"] OpKind.copy (some 1))).getLast?
      ≠ some 100 := by
  constructor
  · rfl
  · decide

/-- The directory loop of a search emits progress events only. -/
theorem dirLoop_shape (fs : SearchFS) (q : String) (c : Option Nat) :
    ∀ (ds : List SDir) (st : SearchSt), ∀ e ∈ (dirLoop fs q c ds st).1,
      ∃ n, e = SEvent.progress n := by
  intro ds
  induction ds with
  | nil => intro st e he; simp [dirLoop] at he
  | cons d rest ih =>
    intro st e he
    simp only [dirLoop] at he
    split at he
    · simp at he
    · split at he
      · exact ih _ e he
      · split at he
        · exact ih _ e he
        · split at he
          · split at he
            · simp at he
              exact ⟨_, he⟩
            · simp at he
          · rcases List.mem_append.1 he with h1 | h1
            · split at h1
              · simp at h1
                exact ⟨_, h1⟩
              · simp at h1
            · exact ih _ e h1

/-- Scanning the entries of one directory grows the match list by at
most the number of entries. -/
theorem entryScan_len (fs : SearchFS) (q : String) (c : Option Nat) :
    ∀ (es : List SEntry) (ms : List String) (k : Nat),
      (entryScan fs q c es ms k).1.length ≤ ms.length + es.length := by
  intro es
  induction es with
  | nil => intro ms k; simp [entryScan]
  | cons e rest ih =>
    intro ms k
    simp only [entryScan]
    split
    · simp
    · split
      · have h2 := ih ms (k + 1)
        simp only [List.length_cons] at h2 ⊢
        omega
      · split
        · have h2 := ih (ms ++ [e.path]) (k + 1)
          simp only [List.length_append, List.length_cons, List.length_nil] at h2 ⊢
          omega
        · have h2 := ih ms (k + 1)
          simp only [List.length_cons] at h2 ⊢
          omega

/-- While the loop is still running the match list has at most 200
entries, so the final list exceeds 200 by at most one directory's
entry count. -/
theorem dirLoop_found_le (fs : SearchFS) (q : String) (c : Option Nat) :
    ∀ (ds : List SDir) (st : SearchSt), st.found.length ≤ 200 →
      (dirLoop fs q c ds st).2.found.length ≤ 200 + entMax ds := by
  intro ds
  induction ds with
  | nil => intro st h; simpa [dirLoop] using le_trans h (by omega)
  | cons d rest ih =>
    intro st h
    have hcons : entMax (d :: rest) = max (entCount d) (entMax rest) := rfl
    simp only [dirLoop]
    split
    · simpa using le_trans h (by omega)
    · split
      · exact le_trans (ih _ h) (by rw [hcons]; omega)
      · split
        · exact le_trans (ih _ h) (by rw [hcons]; omega)
        · have h1 := entryScan_len fs q c d.dirNames st.found (st.k + 1)
          have h2 := entryScan_len fs q c d.fileNames
            (entryScan fs q c d.dirNames st.found (st.k + 1)).1
            (entryScan fs q c d.dirNames st.found (st.k + 1)).2
          have hm2 : (entryScan fs q c d.fileNames
              (entryScan fs q c d.dirNames st.found (st.k + 1)).1
              (entryScan fs q c d.dirNames st.found (st.k + 1)).2).1.length ≤
              200 + entCount d := by
            unfold entCount; omega
          split
          · rename_i hlim
            refine le_trans hm2 ?_
            rw [hcons]; omega
          · rename_i hlim
            have hok : (entryScan fs q c d.fileNames
                (entryScan fs q c d.dirNames st.found (st.k + 1)).1
                (entryScan fs q c d.dirNames st.found (st.k + 1)).2).1.length ≤ 200 := by
              omega
            exact le_trans (ih _ hok) (by rw [hcons]; omega)

/-- C2 (amended): the search loop only checks its bounds at directory
boundaries (strictly-greater checks), so the emitted match list is not
capped at 200 but at 200 plus the entry count of a single directory. -/
theorem c2_match_bound (fs : SearchFS) (q : String) (c : Option Nat) (ms : List String)
    (hmem : SEvent.result ms ∈ searchRun fs q c) :
    ms.length ≤ 200 + entMax fs.walk := by
  unfold searchRun at hmem
  split at hmem
  · simp at hmem
    simp [hmem]
  · split at hmem
    · simp at hmem
      simp [hmem]
    · rcases List.mem_append.1 hmem with h1 | h1
      · obtain ⟨n, hn⟩ := dirLoop_shape fs (strLower q) c fs.walk ⟨[], 0, 0⟩ _ h1
        cases hn
      · simp at h1
        subst h1
        exact dirLoop_found_le fs (strLower q) c fs.walk ⟨[], 0, 0⟩ (by simp)

/-- Witness for C2's amended bound at a concrete input. -/
theorem c2_match_bound_w : (["p"] : List String).length ≤ 200 + entMax c2wFS.walk :=
  c2_match_bound c2wFS "AB" none ["p"] (by decide)

/-- C2 counterexample: a single directory holding 201 files whose names
all match the query yields an emitted match list of 201 entries, more
than the claimed 200 cap. -/
theorem c2_cex :
    (sResults (searchRun c2cexFS "a" none)).map List.length = [201] := by
  rfl

/-- The search directory loop emits non-decreasing percentages, all at
most 95. -/
theorem dirLoop_vals_mono (fs : SearchFS) (q : String) (c : Option Nat) :
    ∀ (ds : List SDir) (st : SearchSt),
      (sVals (dirLoop fs q c ds st).1).Pairwise (· ≤ ·) ∧
      ∀ v ∈ sVals (dirLoop fs q c ds st).1,
        min ((st.processed + 1) * 2) 95 ≤ v ∧ v ≤ 95 := by
  intro ds
  induction ds with
  | nil =>
    intro st
    refine ⟨List.Pairwise.nil, ?_⟩
    intro v hv
    simp [dirLoop, sVals] at hv
  | cons d rest ih =>
    intro st
    simp only [dirLoop]
    split
    · refine ⟨List.Pairwise.nil, ?_⟩
      intro v hv
      simp [sVals] at hv
    · split
      · exact ih _
      · split
        · exact ih _
        · have hmin : min ((st.processed + 1) * 2) 95 ≤ min ((st.processed + 1 + 1) * 2) 95 :=
            min_le_min (by omega) (le_refl _)
          split
          · split
            · refine ⟨by simp [sVals], ?_⟩
              intro v hv
              simp [sVals] at hv
              subst hv
              exact ⟨le_refl _, Nat.min_le_right _ _⟩
            · refine ⟨List.Pairwise.nil, ?_⟩
              intro v hv
              simp [sVals] at hv
          · rw [sVals_append]
            refine ⟨?_, ?_⟩
            · apply List.pairwise_append.2
              refine ⟨?_, (ih _).1, ?_⟩
              · split
                · simp [sVals]
                · exact List.Pairwise.nil
              · intro a ha b hb
                have hbb := (ih _).2 b hb
                split at ha
                · simp [sVals] at ha
                  subst ha
                  exact le_trans hmin hbb.1
                · simp [sVals] at ha
            · intro v hv
              rcases List.mem_append.1 hv with h1 | h1
              · split at h1
                · simp [sVals] at h1
                  subst h1
                  exact ⟨le_refl _, Nat.min_le_right _ _⟩
                · simp [sVals] at h1
              · have hbb := (ih _).2 v h1
                exact ⟨le_trans hmin hbb.1, hbb.2⟩

/-- A search run always ends with the finished event. -/
theorem searchRun_last (fs : SearchFS) (q : String) (c : Option Nat) :
    (searchRun fs q c).getLast? = some SEvent.finished := by
  unfold searchRun
  split
  · rfl
  · split
    · rfl
    · exact lastSome _ _ _ rfl

/-- A search run's percentages are non-decreasing, at most 100, and end
with the final 100 that every exit path emits. -/
theorem searchRun_vals (fs : SearchFS) (q : String) (c : Option Nat) :
    (sVals (searchRun fs q c)).Pairwise (· ≤ ·) ∧
    (∀ v ∈ sVals (searchRun fs q c), v ≤ 100) ∧
    (sVals (searchRun fs q c)).getLast? = some 100 := by
  unfold searchRun
  split
  · exact ⟨by simp [sVals], by intro v hv; simp [sVals] at hv; omega, rfl⟩
  · split
    · exact ⟨by simp [sVals], by intro v hv; simp [sVals] at hv; omega, rfl⟩
    · have hb := dirLoop_vals_mono fs (strLower q) c fs.walk ⟨[], 0, 0⟩
      rw [sVals_append]
      have htail : sVals [SEvent.result (dirLoop fs (strLower q) c fs.walk ⟨[], 0, 0⟩).2.found,
          SEvent.progress 100, SEvent.finished] = [100] := rfl
      rw [htail]
      refine ⟨?_, ?_, lastSome _ _ _ rfl⟩
      · apply List.pairwise_append.2
        refine ⟨hb.1, by simp, ?_⟩
        intro a ha b hbm
        simp at hbm
        subst hbm
        exact le_trans (hb.2 a ha).2 (by omega)
      · intro v hv
        rcases List.mem_append.1 hv with h1 | h1
        · exact le_trans (hb.2 v h1).2 (by omega)
        · simp at h1
          omega

/-- The file loop of the scan stage emits status events only. -/
theorem scanFiles_shape (fs : DupFS) (m : Nat) (c : Option Nat) :
    ∀ (l : List String) (st : ScanSt), ∀ e ∈ (scanFiles fs m c l st).1,
      ∃ s, e = DEvent.status s := by
  intro l
  induction l with
  | nil => intro st e he; simp [scanFiles] at he
  | cons f rest ih =>
    intro st e he
    simp only [scanFiles] at he
    split at he
    · simp at he
    · split at he
      · exact ih _ e he
      · split at he
        · exact ih _ e he
        · split at he
          · exact ih _ e he
          · split at he
            · exact ih _ e he
            · rcases List.mem_append.1 he with h1 | h1
              · split at h1
                · simp at h1
                  exact ⟨_, h1⟩
                · simp at h1
              · exact ih _ e h1

/-- The directory loop of the scan stage emits status events only. -/
theorem scanDirs_shape (fs : DupFS) (m : Nat) (c : Option Nat) :
    ∀ (l : List (List String)) (st : ScanSt), ∀ e ∈ (scanDirs fs m c l st).1,
      ∃ s, e = DEvent.status s := by
  intro l
  induction l with
  | nil => intro st e he; simp [scanDirs] at he
  | cons d rest ih =>
    intro st e he
    simp only [scanDirs] at he
    split at he
    · simp at he
    · rcases List.mem_append.1 he with h1 | h1
      · exact scanFiles_shape fs m c d _ e h1
      · exact ih _ e h1

/-- The root loop of the scan stage emits status events only. -/
theorem scanRoots_shape (fs : DupFS) (m : Nat) (c : Option Nat) :
    ∀ (l : List String) (st : ScanSt), ∀ e ∈ (scanRoots fs m c l st).1,
      ∃ s, e = DEvent.status s := by
  intro l
  induction l with
  | nil => intro st e he; simp [scanRoots] at he
  | cons r rest ih =>
    intro st e he
    simp only [scanRoots] at he
    split at he
    · simp at he
    · split at he
      · exact ih _ e he
      · split at he
        · exact ih _ e he
        · split at he
          · rcases List.mem_cons.1 he with he1 | he1
            · exact ⟨_, he1⟩
            · exact ih _ e he1
          · rcases List.mem_append.1 he with h1 | h1
            · exact scanDirs_shape fs m c _ _ e h1
            · exact ih _ e h1

/-- The file loop of the hash stage emits progress events only. -/
theorem hashFiles_shape (fs : DupFS) (c : Option Nat) (potential : Nat) :
    ∀ (l : List String) (st : HashSt), ∀ e ∈ (hashFiles fs c potential l st).1,
      ∃ n, e = DEvent.progress n := by
  intro l
  induction l with
  | nil => intro st e he; simp [hashFiles] at he
  | cons f rest ih =>
    intro st e he
    simp only [hashFiles] at he
    split at he
    · simp at he
    · rcases List.mem_append.1 he with h1 | h1
      · split at h1
        · simp at h1
          exact ⟨_, h1⟩
        · simp at h1
      · exact ih _ e h1

/-- The group loop of the hash stage emits progress events only. -/
theorem hashGroupsLoop_shape (fs : DupFS) (c : Option Nat) (potential : Nat) :
    ∀ (l : List (Nat × List String)) (st : HashSt),
      ∀ e ∈ (hashGroupsLoop fs c potential l st).1, ∃ n, e = DEvent.progress n := by
  intro l
  induction l with
  | nil => intro st e he; simp [hashGroupsLoop] at he
  | cons g rest ih =>
    intro st e he
    obtain ⟨sz, ps⟩ := g
    simp only [hashGroupsLoop] at he
    split at he
    · simp at he
    · split at he
      · rcases List.mem_append.1 he with h1 | h1
        · exact hashFiles_shape fs c potential ps _ e h1
        · exact ih _ e h1
      · exact ih _ e he

/-- A status-only event list carries no progress values. -/
theorem dVals_nil_of_status (evs : List DEvent)
    (h : ∀ e ∈ evs, ∃ s, e = DEvent.status s) : dVals evs = [] := by
  induction evs with
  | nil => rfl
  | cons e t ih =>
    obtain ⟨s, rfl⟩ := h e (List.mem_cons_self e t)
    exact ih (fun e' he' => h e' (List.mem_cons_of_mem _ he'))

/-- No result event hides among status events. -/
theorem result_not_mem_status {gs : List DupGroup} {t : Nat} {evs : List DEvent}
    (h : ∀ e ∈ evs, ∃ s, e = DEvent.status s) : DEvent.result gs t ∉ evs := by
  intro hm
  obtain ⟨s, hs⟩ := h _ hm
  cases hs

/-- No result event hides among progress events. -/
theorem result_not_mem_progress {gs : List DupGroup} {t : Nat} {evs : List DEvent}
    (h : ∀ e ∈ evs, ∃ n, e = DEvent.progress n) : DEvent.result gs t ∉ evs := by
  intro hm
  obtain ⟨n, hn⟩ := h _ hm
  cases hn

/-- A duplicate-scan run always ends with the finished event. -/
theorem dupRun_last (fs : DupFS) (roots : List String) (m : Nat) (c : Option Nat) :
    (dupRun fs roots m c).getLast? = some DEvent.finished := by
  simp only [dupRun]
  split
  all_goals try split
  all_goals try split
  all_goals
    first
      | exact lastSome _ _ _ (lastSome _ _ _ rfl)
      | exact lastSome _ _ _ rfl

/-- Division of scaled counters is monotone. -/
theorem divp_mono (potential : Nat) {a b : Nat} (h : a ≤ b) :
    (a * 100) / potential ≤ (b * 100) / potential :=
  Nat.div_le_div_right (Nat.mul_le_mul_right 100 h)

/-- The hash-stage file loop: progress values are non-decreasing, the
processed counter only grows, by at most the number of files, and every
value is sandwiched between the percentages of the entry and exit
counters. -/
theorem hashFiles_mono (fs : DupFS) (c : Option Nat) (potential : Nat) :
    ∀ (l : List String) (st : HashSt),
      (dVals (hashFiles fs c potential l st).1).Pairwise (· ≤ ·) ∧
      st.processed ≤ (hashFiles fs c potential l st).2.processed ∧
      (hashFiles fs c potential l st).2.processed ≤ st.processed + l.length ∧
      ∀ v ∈ dVals (hashFiles fs c potential l st).1,
        ((st.processed + 1) * 100) / potential ≤ v ∧
        v ≤ ((hashFiles fs c potential l st).2.processed * 100) / potential := by
  intro l
  induction l with
  | nil =>
    intro st
    refine ⟨List.Pairwise.nil, le_refl _, Nat.le_add_right _ _, ?_⟩
    intro v hv
    simp [hashFiles, dVals] at hv
  | cons f rest ih =>
    intro st
    simp only [hashFiles]
    split
    · refine ⟨List.Pairwise.nil, le_refl _, Nat.le_add_right _ _, ?_⟩
      intro v hv
      simp [dVals] at hv
    · rcases hh : fs.fileHash f with _ | h <;> simp only [hh]
      · have H := ih ⟨st.hg, st.processed + 1, st.k + 1⟩
        dsimp only at H
        rw [dVals_append]
        refine ⟨?_, ?_, ?_, ?_⟩
        · apply List.pairwise_append.2
          refine ⟨?_, H.1, ?_⟩
          · split
            · simp [dVals]
            · exact List.Pairwise.nil
          · intro a ha b hb
            split at ha
            · simp [dVals] at ha
              subst ha
              exact le_trans (divp_mono potential (by omega)) (H.2.2.2 b hb).1
            · simp [dVals] at ha
        · exact le_trans (Nat.le_succ _) H.2.1
        · have := H.2.2.1
          simp only [List.length_cons]
          omega
        · intro v hv
          rcases List.mem_append.1 hv with h1 | h1
          · split at h1
            · simp [dVals] at h1
              subst h1
              exact ⟨le_refl _, divp_mono potential H.2.1⟩
            · simp [dVals] at h1
          · have hb := (H.2.2.2) v h1
            exact ⟨le_trans (divp_mono potential (by omega)) hb.1, hb.2⟩
      · have H := ih ⟨hgInsert st.hg h f, st.processed + 1, st.k + 1⟩
        dsimp only at H
        rw [dVals_append]
        refine ⟨?_, ?_, ?_, ?_⟩
        · apply List.pairwise_append.2
          refine ⟨?_, H.1, ?_⟩
          · split
            · simp [dVals]
            · exact List.Pairwise.nil
          · intro a ha b hb
            split at ha
            · simp [dVals] at ha
              subst ha
              exact le_trans (divp_mono potential (by omega)) (H.2.2.2 b hb).1
            · simp [dVals] at ha
        · exact le_trans (Nat.le_succ _) H.2.1
        · have := H.2.2.1
          simp only [List.length_cons]
          omega
        · intro v hv
          rcases List.mem_append.1 hv with h1 | h1
          · split at h1
            · simp [dVals] at h1
              subst h1
              exact ⟨le_refl _, divp_mono potential H.2.1⟩
            · simp [dVals] at h1
          · have hb := (H.2.2.2) v h1
            exact ⟨le_trans (divp_mono potential (by omega)) hb.1, hb.2⟩

/-- `potential_duplicates` of a cons. -/
theorem potentialOf_cons (g : Nat × List String) (rest : List (Nat × List String)) :
    potentialOf (g :: rest) =
      (if g.2.length > 1 then g.2.length else 0) + potentialOf rest := by
  simp [potentialOf]

/-- The hash-stage group loop: progress values are non-decreasing, the
processed counter only grows, by at most the number of potential
duplicates in the remaining groups, and every value is sandwiched
between the percentages of the entry and exit counters. -/
theorem hashGroupsLoop_mono (fs : DupFS) (c : Option Nat) (potential : Nat) :
    ∀ (l : List (Nat × List String)) (st : HashSt),
      (dVals (hashGroupsLoop fs c potential l st).1).Pairwise (· ≤ ·) ∧
      st.processed ≤ (hashGroupsLoop fs c potential l st).2.processed ∧
      (hashGroupsLoop fs c potential l st).2.processed ≤ st.processed + potentialOf l ∧
      ∀ v ∈ dVals (hashGroupsLoop fs c potential l st).1,
        ((st.processed + 1) * 100) / potential ≤ v ∧
        v ≤ ((hashGroupsLoop fs c potential l st).2.processed * 100) / potential := by
  intro l
  induction l with
  | nil =>
    intro st
    refine ⟨List.Pairwise.nil, le_refl _, Nat.le_add_right _ _, ?_⟩
    intro v hv
    simp [hashGroupsLoop, dVals] at hv
  | cons g rest ih =>
    intro st
    obtain ⟨sz, ps⟩ := g
    rw [potentialOf_cons]
    simp only [hashGroupsLoop]
    split
    · refine ⟨List.Pairwise.nil, le_refl _, Nat.le_add_right _ _, ?_⟩
      intro v hv
      simp [dVals] at hv
    · split
      · rename_i hbig
        have H1 := hashFiles_mono fs c potential ps ⟨st.hg, st.processed, st.k + 1⟩
        have H2 := ih (hashFiles fs c potential ps ⟨st.hg, st.processed, st.k + 1⟩).2
        dsimp only at H1 H2
        rw [dVals_append]
        refine ⟨?_, ?_, ?_, ?_⟩
        · apply List.pairwise_append.2
          refine ⟨H1.1, H2.1, ?_⟩
          intro a ha b hb
          have ha2 := (H1.2.2.2 a ha).2
          have hb2 := (H2.2.2.2 b hb).1
          exact le_trans ha2 (le_trans (divp_mono potential (by omega)) hb2)
        · exact le_trans H1.2.1 H2.2.1
        · have h1 := H1.2.2.1
          have h2 := H2.2.2.1
          simp only [if_pos hbig]
          omega
        · intro v hv
          rcases List.mem_append.1 hv with h1 | h1
          · have hb := H1.2.2.2 v h1
            exact ⟨hb.1, le_trans hb.2 (divp_mono potential H2.2.1)⟩
          · have hb := H2.2.2.2 v h1
            exact ⟨le_trans (divp_mono potential (by have := H1.2.1; omega)) hb.1, hb.2⟩
      · have H2 := ih ⟨st.hg, st.processed, st.k + 1⟩
        dsimp only at H2
        refine ⟨H2.1, H2.2.1, by have := H2.2.2.1; omega, H2.2.2.2⟩

/-- Unfolding equations for the progress-value extraction. -/
theorem dVals_status_cons (x : String) (l : List DEvent) :
    dVals (DEvent.status x :: l) = dVals l := rfl

theorem dVals_progress_cons (n : Nat) (l : List DEvent) :
    dVals (DEvent.progress n :: l) = n :: dVals l := rfl

theorem dVals_result_cons (gs : List DupGroup) (t : Nat) (l : List DEvent) :
    dVals (DEvent.result gs t :: l) = dVals l := rfl

theorem dVals_finished_cons (l : List DEvent) :
    dVals (DEvent.finished :: l) = dVals l := rfl

/-- A duplicate-scan run's percentages are non-decreasing and at most
100. -/
theorem dupRun_vals (fs : DupFS) (roots : List String) (m : Nat) (c : Option Nat) :
    (dVals (dupRun fs roots m c)).Pairwise (· ≤ ·) ∧
    ∀ v ∈ dVals (dupRun fs roots m c), v ≤ 100 := by
  have hscan : dVals (dupScanOut fs roots m c).1 = [] :=
    dVals_nil_of_status _ (scanRoots_shape fs m c roots ⟨[], 0, 0⟩)
  simp only [dupRun]
  split
  · constructor
    · simp [dVals_append, dVals_status_cons, dVals_finished_cons, dVals, hscan]
    · intro v hv
      simp [dVals_append, dVals_status_cons, dVals_finished_cons, dVals, hscan] at hv
  · split
    · constructor
      · simp [dVals_append, dVals_status_cons, dVals_result_cons, dVals_progress_cons,
          dVals_finished_cons, dVals, hscan]
      · intro v hv
        simp [dVals_append, dVals_status_cons, dVals_result_cons, dVals_progress_cons,
          dVals_finished_cons, dVals, hscan] at hv
        omega
    · rename_i hpz
      have hpot : potentialOf (dupScanOut fs roots m c).2.sg ≠ 0 := by simpa using hpz
      have H : (dVals (dupHashOut fs roots m c).1).Pairwise (· ≤ ·) ∧
          0 ≤ (dupHashOut fs roots m c).2.processed ∧
          (dupHashOut fs roots m c).2.processed ≤
            0 + potentialOf (dupScanOut fs roots m c).2.sg ∧
          ∀ v ∈ dVals (dupHashOut fs roots m c).1,
            ((0 + 1) * 100) / potentialOf (dupScanOut fs roots m c).2.sg ≤ v ∧
            v ≤ ((dupHashOut fs roots m c).2.processed * 100) /
              potentialOf (dupScanOut fs roots m c).2.sg :=
        hashGroupsLoop_mono fs c (potentialOf (dupScanOut fs roots m c).2.sg)
          (dupScanOut fs roots m c).2.sg ⟨[], 0, (dupScanOut fs roots m c).2.k + 1⟩
      have hle100 : ∀ v ∈ dVals (dupHashOut fs roots m c).1, v ≤ 100 := by
        intro v hv
        have h2 := (H.2.2.2 v hv).2
        have h3 : (dupHashOut fs roots m c).2.processed ≤
            potentialOf (dupScanOut fs roots m c).2.sg := by
          have := H.2.2.1; omega
        refine le_trans h2 (le_trans (divp_mono _ h3) ?_)
        rw [Nat.mul_div_cancel_left 100 (Nat.pos_of_ne_zero hpot)]
      have hkey : ∀ (tail : List DEvent),
          dVals (DEvent.status "Scanning files..." :: (dupScanOut fs roots m c).1 ++
            [DEvent.status ("Found " ++ toString (dupScanOut fs roots m c).2.total ++
              " files, checking for duplicates...")] ++
            [DEvent.status ("Checking " ++
              toString (potentialOf (dupScanOut fs roots m c).2.sg) ++
              " potential duplicates...")] ++
            (dupHashOut fs roots m c).1 ++ tail) =
          dVals (dupHashOut fs roots m c).1 ++ dVals tail := by
        intro tail
        simp [dVals_append, dVals_status_cons, dVals, hscan]
      split
      · constructor
        · rw [hkey]
          simpa [dVals] using H.1
        · intro v hv
          rw [hkey] at hv
          simp only [dVals, List.append_nil] at hv
          exact hle100 v hv
      · constructor
        · rw [hkey]
          apply List.pairwise_append.2
          refine ⟨H.1, by simp [dVals], ?_⟩
          intro a ha b hb
          simp [dVals] at hb
          subst hb
          exact hle100 a ha
        · intro v hv
          rw [hkey] at hv
          rcases List.mem_append.1 hv with h1 | h1
          · exact hle100 v h1
          · simp [dVals] at h1
            omega

/-- The fields of any group built by the assembly step. -/
theorem assembleGroup_fields (fs : DupFS) (h : String) (ps : List String) (g : DupGroup)
    (hg : assembleGroup fs h ps = some g) :
    g.hash = h ∧ 1 < ps.length ∧
    g.files = (if allMtimes fs ps then sortM fs ps else ps) ∧
    g.count = ps.length ∧ g.files.length = ps.length ∧
    g.size * (ps.length - 1) = g.wasted_space := by
  simp only [assembleGroup] at hg
  split at hg
  · rename_i hlen
    split at hg
    · cases hg
    · split at hg
      · rename_i sz hsz
        injection hg with hg'
        subst hg'
        refine ⟨rfl, by omega, rfl, rfl, ?_, rfl⟩
        split
        · simp [sortM, List.length_insertionSort]
        · rfl
      · cases hg
  · cases hg

/-- Every group the assembly loop returns comes from `assembleGroup`,
and the returned total is the sum of the groups' wasted space. -/
theorem assembleLoop_inv (fs : DupFS) :
    ∀ (hgs : List (String × List String)),
      (∀ g ∈ (assembleLoop fs hgs).1, ∃ h ps, assembleGroup fs h ps = some g) ∧
      (assembleLoop fs hgs).2 =
        ((assembleLoop fs hgs).1.map (fun g => g.wasted_space)).sum := by
  intro hgs
  induction hgs with
  | nil =>
    refine ⟨?_, rfl⟩
    intro g hg
    simp [assembleLoop] at hg
  | cons p rest ih =>
    obtain ⟨h, ps⟩ := p
    simp only [assembleLoop]
    rcases hg : assembleGroup fs h ps with _ | g <;> simp only [hg]
    · exact ih
    · refine ⟨?_, ?_⟩
      · intro g' hg'
        rcases List.mem_cons.1 hg' with rfl | hm
        · exact ⟨h, ps, hg⟩
        · exact ih.1 g' hm
      · simp [List.map_cons, List.sum_cons, ih.2]

/-- The hash-stage events of a full run, phrased on `dupHashOut`. -/
theorem dupHashOut_shape (fs : DupFS) (roots : List String) (m : Nat) (c : Option Nat) :
    ∀ e ∈ (dupHashOut fs roots m c).1, ∃ n, e = DEvent.progress n :=
  hashGroupsLoop_shape fs c _ _ _

/-- Any result event a duplicate-scan run emits is either the
zero-duplicates `result([], 0)` or the assembly stage's output. -/
theorem result_mem_run_cases (fs : DupFS) (roots : List String) (m : Nat) (c : Option Nat)
    (gs : List DupGroup) (t : Nat) (hmem : DEvent.result gs t ∈ dupRun fs roots m c) :
    (gs = [] ∧ t = 0) ∨
    (gs = (assembleLoop fs (dupHashOut fs roots m c).2.hg).1 ∧
     t = (assembleLoop fs (dupHashOut fs roots m c).2.hg).2) := by
  have hscan := scanRoots_shape fs m c roots ⟨[], 0, 0⟩
  have hhash := dupHashOut_shape fs roots m c
  simp only [dupRun] at hmem
  split at hmem
  · exfalso
    rcases List.mem_append.1 hmem with h1 | h1
    · rcases List.mem_cons.1 h1 with he | he
      · cases he
      · obtain ⟨s, hs⟩ := hscan _ he
        cases hs
    · simp at h1
  · split at hmem
    · rcases List.mem_append.1 hmem with h1 | h1
      · exfalso
        rcases List.mem_append.1 h1 with h2 | h2
        · rcases List.mem_cons.1 h2 with he | he
          · cases he
          · obtain ⟨s, hs⟩ := hscan _ he
            cases hs
        · simp at h2
      · left
        simp at h1
        exact h1
    · split at hmem
      · exfalso
        rcases List.mem_cons.1 hmem with he | he
        · cases he
        rcases List.mem_append.1 he with h1 | h1
        · rcases List.mem_append.1 h1 with h2 | h2
          · rcases List.mem_append.1 h2 with h3 | h3
            · rcases List.mem_append.1 h3 with h4 | h4
              · obtain ⟨s, hs⟩ := hscan _ h4
                cases hs
              · simp at h4
            · simp at h3
          · obtain ⟨n, hn⟩ := hhash _ h2
            cases hn
        · simp at h1
      · rcases List.mem_cons.1 hmem with he | he
        · cases he
        rcases List.mem_append.1 he with h1 | h1
        · exfalso
          rcases List.mem_append.1 h1 with h2 | h2
          · rcases List.mem_append.1 h2 with h3 | h3
            · rcases List.mem_append.1 h3 with h4 | h4
              · obtain ⟨s, hs⟩ := hscan _ h4
                cases hs
              · simp at h4
            · simp at h3
          · obtain ⟨n, hn⟩ := hhash _ h2
            cases hn
        · right
          simp at h1
          exact h1

/-- The stable sort places an element before every equal key it meets,
so filtering one modification time out of an insertion step either
prepends the inserted element or leaves the filtration unchanged. -/
theorem filter_orderedInsert (fs : DupFS) (mt : Nat) :
    ∀ (l : List String) (a : String),
      (List.orderedInsert (fun x y => mkey fs x ≤ mkey fs y) a l).filter
          (fun p => fs.getmtime p == some mt) =
        if (fs.getmtime a == some mt) = true then
          a :: l.filter (fun p => fs.getmtime p == some mt)
        else l.filter (fun p => fs.getmtime p == some mt) := by
  intro l
  induction l with
  | nil =>
    intro a
    simp only [List.orderedInsert, List.filter]
    split <;> rename_i hpk <;> simp [hpk]
  | cons b t ih =>
    intro a
    simp only [List.orderedInsert]
    split
    · by_cases hpk : (fs.getmtime a == some mt) = true <;>
        simp [List.filter_cons, hpk]
    · rename_i hnr
      by_cases hpk : (fs.getmtime a == some mt) = true
      · have hpkb : ¬ (fs.getmtime b == some mt) = true := by
          intro hb
          apply hnr
          have h1 : fs.getmtime a = some mt := by simpa using hpk
          have h2 : fs.getmtime b = some mt := by simpa using hb
          simp [mkey, h1, h2]
        simp [List.filter_cons, hpk, hpkb, ih]
      · by_cases hpkb : (fs.getmtime b == some mt) = true <;>
          simp [List.filter_cons, hpk, hpkb, ih]

/-- Sorting by modification time never changes which paths carry a
given modification time, nor their relative order (stability). -/
theorem filter_sortM (fs : DupFS) (mt : Nat) :
    ∀ (ps : List String),
      (sortM fs ps).filter (fun p => fs.getmtime p == some mt) =
        ps.filter (fun p => fs.getmtime p == some mt) := by
  intro ps
  induction ps with
  | nil => rfl
  | cons a t ih =>
    simp only [sortM, List.insertionSort] at ih ⊢
    rw [filter_orderedInsert]
    by_cases hpk : (fs.getmtime a == some mt) = true <;>
      simp [List.filter_cons, hpk, ih]

/-- The output of the modification-time sort is sorted by key. -/
theorem sortM_sorted (fs : DupFS) (ps : List String) :
    (sortM fs ps).Sorted (fun a b => mkey fs a ≤ mkey fs b) := by
  haveI : IsTotal String (fun a b => mkey fs a ≤ mkey fs b) :=
    ⟨fun a b => Nat.le_total _ _⟩
  haveI : IsTrans String (fun a b => mkey fs a ≤ mkey fs b) :=
    ⟨fun a b cc h1 h2 => Nat.le_trans h1 h2⟩
  exact List.sorted_insertionSort _ ps

/-- In a sorted nonempty list the head carries the least key. -/
theorem sorted_head_min (fs : DupFS) (l : List String)
    (hs : l.Sorted (fun a b => mkey fs a ≤ mkey fs b)) :
    ∀ q ∈ l, mkey fs l.headI ≤ mkey fs q := by
  cases l with
  | nil => intro q hq; cases hq
  | cons x rest =>
    intro q hq
    rcases List.mem_cons.1 hq with rfl | hq'
    · exact le_refl _
    · exact List.rel_of_sorted_cons hs q hq'

/-- C4: every emitted DuplicateGroup satisfies
`wasted_space = size * (count - 1)` and `count = len(files)`, and the
emitted total wasted space is the sum of the groups' wasted space. -/
theorem c4_wasted_space (fs : DupFS) (roots : List String) (m : Nat) (c : Option Nat)
    (gs : List DupGroup) (t : Nat) (hmem : DEvent.result gs t ∈ dupRun fs roots m c) :
    (∀ g ∈ gs, g.wasted_space = g.size * (g.count - 1) ∧ g.count = g.files.length) ∧
    t = (gs.map (fun g => g.wasted_space)).sum := by
  rcases result_mem_run_cases fs roots m c gs t hmem with ⟨rfl, rfl⟩ | ⟨rfl, rfl⟩
  · refine ⟨?_, rfl⟩
    intro g hg
    cases hg
  · refine ⟨?_, (assembleLoop_inv fs _).2⟩
    intro g hg
    obtain ⟨h, ps, hag⟩ := (assembleLoop_inv fs _).1 g hg
    obtain ⟨_, _, _, hcount, hflen, hwasted⟩ := assembleGroup_fields fs h ps g hag
    constructor
    · rw [hcount, ← hwasted]
    · rw [hcount, ← hflen]

/-- Witness for C4 at a concrete run with one duplicate pair. -/
theorem c4_wasted_space_w :
    (∀ g ∈ [(⟨"h", ["f2", "f1"], 5, 5, 2⟩ : DupGroup)],
        g.wasted_space = g.size * (g.count - 1) ∧ g.count = g.files.length) ∧
    (5 : Nat) = ([(⟨"h", ["f2", "f1"], 5, 5, 2⟩ : DupGroup)].map (fun g => g.wasted_space)).sum :=
  c4_wasted_space c4wFS ["r"] 0 none [⟨"h", ["f2", "f1"], 5, 5, 2⟩] 5 (by decide)

/-- C3: a run that observes cancellation during the scan stage or the
hash stage ends with finished and emits no result event; a run that
passes the scan stage uncancelled with zero potential duplicates emits
`result([], 0)` and then the final progress and finished events. -/
theorem c3_cancel_semantics (fs : DupFS) (roots : List String) (m : Nat) (c : Option Nat) :
    (dupScanCancelled fs roots m c = true →
      (dupRun fs roots m c).getLast? = some DEvent.finished ∧
      ∀ gs t, DEvent.result gs t ∉ dupRun fs roots m c) ∧
    (dupScanCancelled fs roots m c = false →
      potentialOf (dupScanOut fs roots m c).2.sg ≠ 0 →
      dupHashCancelled fs roots m c = true →
      (dupRun fs roots m c).getLast? = some DEvent.finished ∧
      ∀ gs t, DEvent.result gs t ∉ dupRun fs roots m c) ∧
    (dupScanCancelled fs roots m c = false →
      potentialOf (dupScanOut fs roots m c).2.sg = 0 →
      dupRun fs roots m c =
        DEvent.status "Scanning files..." :: (dupScanOut fs roots m c).1 ++
          [DEvent.status ("Found " ++ toString (dupScanOut fs roots m c).2.total ++
             " files, checking for duplicates..."),
           DEvent.result [] 0, DEvent.progress 100, DEvent.finished]) := by
  have hscan := scanRoots_shape fs m c roots ⟨[], 0, 0⟩
  have hhash := dupHashOut_shape fs roots m c
  refine ⟨fun h1 => ?_, fun h1 h2 h3 => ?_, fun h1 h2 => ?_⟩
  · refine ⟨dupRun_last fs roots m c, ?_⟩
    intro gs t hmem
    simp [dupRun, h1] at hmem
    obtain ⟨s, hs⟩ := hscan _ hmem
    cases hs
  · refine ⟨dupRun_last fs roots m c, ?_⟩
    intro gs t hmem
    have h2' : (potentialOf (dupScanOut fs roots m c).2.sg == 0) = false := by
      simpa using h2
    simp [dupRun, h1, h2', h3] at hmem
    rcases hmem with ha | ha
    · obtain ⟨s, hs⟩ := hscan _ ha
      cases hs
    · obtain ⟨n, hn⟩ := hhash _ ha
      cases hn
  · have h2' : (potentialOf (dupScanOut fs roots m c).2.sg == 0) = true := by
      simp [h2]
    simp only [dupRun, h1, Bool.false_eq_true, if_false, h2', if_true]
    simp

/-- Witness for C3: the sample duplicate filesystem cancelled during
hashing ends with finished and no result; an empty root list with no
potential duplicates emits the empty result and then finished. -/
theorem c3_cancel_semantics_w :
    ((dupRun c3wFS ["r"] 0 (some 6)).getLast? = some DEvent.finished ∧
      ∀ gs t, DEvent.result gs t ∉ dupRun c3wFS ["r"] 0 (some 6)) ∧
    dupRun c3wFS [] 0 none =
      DEvent.status "Scanning files..." :: (dupScanOut c3wFS [] 0 none).1 ++
        [DEvent.status ("Found " ++ toString (dupScanOut c3wFS [] 0 none).2.total ++
           " files, checking for duplicates..."),
         DEvent.result [] 0, DEvent.progress 100, DEvent.finished] :=
  ⟨(c3_cancel_semantics c3wFS ["r"] 0 (some 6)).2.1 (by decide) (by decide) (by decide),
   (c3_cancel_semantics c3wFS [] 0 none).2.2 (by decide) (by decide)⟩

/-- C5 counterexample: two same-size files with equal hash, where one
modification time is unreadable and the size of the group's first
member is unreadable too, produce an empty result: the group is dropped
at assembly (duplicate_finder.py line 215), not emitted in discovery
order. -/
theorem c5_cex :
    dupRun c5cexFS ["r"] 0 none =
      [DEvent.status "Scanning files...",
       DEvent.status "Found 2 files, checking for duplicates...",
       DEvent.status "Checking 2 potential duplicates...",
       DEvent.result [] 0, DEvent.progress 100, DEvent.finished] := by
  rfl

/-- C5 (amended): every emitted group's files list is nonempty and,
when all its modification times are readable, sorted ascending by
modification time with its head minimal; the sort is stable (for every
modification time the filtered sublist keeps discovery order); a group
with an unreadable member modification time keeps discovery order and
is emitted exactly when the size of its first member is readable. -/
theorem c5_mtime_order :
    (∀ (fs : DupFS) (roots : List String) (m : Nat) (c : Option Nat)
        (gs : List DupGroup) (t : Nat), DEvent.result gs t ∈ dupRun fs roots m c →
        ∀ g ∈ gs, g.files ≠ [] ∧
          (allMtimes fs g.files = true →
            g.files.Sorted (fun a b => mkey fs a ≤ mkey fs b) ∧
            ∀ q ∈ g.files, mkey fs g.files.headI ≤ mkey fs q)) ∧
    (∀ (fs : DupFS) (h : String) (ps : List String), 1 < ps.length →
        allMtimes fs ps = true →
        ∀ g, assembleGroup fs h ps = some g →
          g.files = sortM fs ps ∧
          ∀ mt : Nat, g.files.filter (fun p => fs.getmtime p == some mt) =
            ps.filter (fun p => fs.getmtime p == some mt)) ∧
    (∀ (fs : DupFS) (h : String) (ps : List String), 1 < ps.length →
        allMtimes fs ps = false →
        (∀ g, assembleGroup fs h ps = some g → g.files = ps) ∧
        (fs.getsize ps.headI = none → assembleGroup fs h ps = none) ∧
        (∀ sz, fs.getsize ps.headI = some sz →
          assembleGroup fs h ps = some ⟨h, ps, sz, sz * (ps.length - 1), ps.length⟩)) := by
  refine ⟨?_, ?_, ?_⟩
  · intro fs roots m c gs t hmem g hg
    rcases result_mem_run_cases fs roots m c gs t hmem with ⟨rfl, rfl⟩ | ⟨rfl, rfl⟩
    · cases hg
    · obtain ⟨h, ps, hag⟩ := (assembleLoop_inv fs _).1 g hg
      obtain ⟨_, hlen, hfiles, _, hflen, _⟩ := assembleGroup_fields fs h ps g hag
      constructor
      · intro hnil
        rw [hnil] at hflen
        simp at hflen
        omega
      · intro hall
        by_cases hm : allMtimes fs ps = true
        · rw [if_pos hm] at hfiles
          rw [hfiles]
          exact ⟨sortM_sorted fs ps, sorted_head_min fs _ (sortM_sorted fs ps)⟩
        · rw [if_neg hm] at hfiles
          rw [hfiles] at hall
          exact absurd hall hm
  · intro fs h ps hlen hall g hg
    obtain ⟨_, _, hfiles, _, _, _⟩ := assembleGroup_fields fs h ps g hg
    rw [if_pos hall] at hfiles
    refine ⟨hfiles, ?_⟩
    intro mt
    rw [hfiles]
    exact filter_sortM fs mt ps
  · intro fs h ps hlen hall
    cases ps with
    | nil => simp at hlen
    | cons p0 rest =>
      refine ⟨?_, ?_, ?_⟩
      · intro g hg
        obtain ⟨_, _, hfiles, _, _, _⟩ := assembleGroup_fields fs h (p0 :: rest) g hg
        rwa [if_neg (by simp [hall])] at hfiles
      · intro hnone
        simp only [assembleGroup, if_pos hlen, hall, Bool.false_eq_true, if_false]
        simp only [List.head?_cons]
        simp only [List.headI] at hnone
        rw [hnone]
      · intro sz hsz
        simp only [assembleGroup, if_pos hlen, hall, Bool.false_eq_true, if_false]
        simp only [List.head?_cons]
        simp only [List.headI] at hsz
        rw [hsz]

/-- Witness for C5's amended statement on a readable concrete group. -/
theorem c5_mtime_order_w :
    (["f2", "f1"] : List String) ≠ [] ∧
    (allMtimes c5wFS ["f2", "f1"] = true →
      (["f2", "f1"] : List String).Sorted (fun a b => mkey c5wFS a ≤ mkey c5wFS b) ∧
      ∀ q ∈ (["f2", "f1"] : List String),
        mkey c5wFS (["f2", "f1"] : List String).headI ≤ mkey c5wFS q) :=
  c5_mtime_order.1 c5wFS ["r"] 0 none [⟨"h", ["f2", "f1"], 5, 5, 2⟩] 5 (by decide)
    ⟨"h", ["f2", "f1"], 5, 5, 2⟩ (by decide)

/-- C1 (amended): search and duplicate-scan runs always end with the
finished event; a file operation ends with finished whenever the
destination pre-check passes, but a failed pre-check emits exactly one
error event and no finished event. -/
theorem c1_finished_last :
    (∀ (fs : SearchFS) (q : String) (c : Option Nat),
        (searchRun fs q c).getLast? = some SEvent.finished) ∧
    (∀ (fs : DupFS) (roots : List String) (m : Nat) (c : Option Nat),
        (dupRun fs roots m c).getLast? = some DEvent.finished) ∧
    (∀ (exist : List FPath) (opErr : FPath → FPath → Option String)
        (sources : List FPath) (dstDir : FPath) (kind : OpKind) (c : Option Nat),
        (opRun ⟨true, exist, opErr⟩ sources dstDir kind c).getLast? = some OEvent.finished) ∧
    (∀ (exist : List FPath) (opErr : FPath → FPath → Option String)
        (sources : List FPath) (dstDir : FPath) (kind : OpKind) (c : Option Nat),
        opRun ⟨false, exist, opErr⟩ sources dstDir kind c =
          [OEvent.error (opTitle kind ++ " Error") "Invalid destination directory."]) := by
  refine ⟨searchRun_last, dupRun_last, ?_, ?_⟩
  · intro exist opErr sources dstDir kind c
    have hrw : opRun ⟨true, exist, opErr⟩ sources dstDir kind c =
        (opLoop ⟨true, exist, opErr⟩ dstDir kind c sources.length sources 0 ⟨exist, [], 0, 0⟩).1 ++
          [OEvent.result
             (opLoop ⟨true, exist, opErr⟩ dstDir kind c sources.length sources 0 ⟨exist, [], 0, 0⟩).2.succ
             (opLoop ⟨true, exist, opErr⟩ dstDir kind c sources.length sources 0 ⟨exist, [], 0, 0⟩).2.errors
             kind,
           OEvent.finished] := rfl
    rw [hrw]
    exact lastSome _ _ _ rfl
  · intro exist opErr sources dstDir kind c
    rfl

/-- C1 counterexample: a file operation whose destination pre-check
fails emits only the error event, so its last event is not finished. -/
theorem c1_cex :
    opRun ⟨false, [], fun _ _ => none⟩ [["s", "a"]] ["d"] OpKind.copy none =
      [OEvent.error "Copy Error" "Invalid destination directory."] ∧
    (opRun ⟨false, [], fun _ _ => none⟩ [["s", "a"]] ["d"] OpKind.copy none).getLast? ≠
      some OEvent.finished := by
  constructor
  · rfl
  · decide

/-- C9 (amended): every engine's progress percentages are
non-decreasing and at most 100; a search run's final percentage is
always 100, while cancelled duplicate-scan and file-operation runs may
stop below 100. -/
theorem c9_progress_monotone :
    (∀ (fs : SearchFS) (q : String) (c : Option Nat),
        (sVals (searchRun fs q c)).Pairwise (· ≤ ·) ∧
        (∀ v ∈ sVals (searchRun fs q c), v ≤ 100) ∧
        (sVals (searchRun fs q c)).getLast? = some 100) ∧
    (∀ (fs : DupFS) (roots : List String) (m : Nat) (c : Option Nat),
        (dVals (dupRun fs roots m c)).Pairwise (· ≤ ·) ∧
        ∀ v ∈ dVals (dupRun fs roots m c), v ≤ 100) ∧
    (∀ (fs : OpFS) (sources : List FPath) (dstDir : FPath) (kind : OpKind) (c : Option Nat),
        (oVals (opRun fs sources dstDir kind c)).Pairwise (· ≤ ·) ∧
        ∀ v ∈ oVals (opRun fs sources dstDir kind c), v ≤ 100) :=
  ⟨searchRun_vals, dupRun_vals, opRun_vals_mono⟩

/-- Witness for C9's amended statement: the value emitted by the
concrete cancelled run is at most 100. -/
theorem c9_progress_monotone_w : (50 : Nat) ≤ 100 :=
  (c9_progress_monotone.2.2 c9cexFS [["s", "x"], ["s", "y"]] ["d"] OpKind.copy (some 1)).2
    50 (by decide)

end ProView
